import Mathlib

/-!
Verification of the SSSP engine ("Breaking the Sorting Barrier" algorithm):
a shallow embedding of `include/block_data_structure.hpp` and
`include/new_sssp.hpp` together with theorems about the embedded code.

Modelling conventions:
- C++ `double` values (distances, bounds) are modelled as extended rationals
  `WithTop ℚ`; IEEE infinity is `⊤`. The code only adds finite weights and
  compares, so `WithTop ℚ` mirrors the comparisons exactly (`INF <= INF` is
  true, `INF < INF` is false, `INF + w = INF`), up to rounding, and all
  concrete counterexamples below use integer weights where rounding is exact.
- `std::set<int>` is a strictly ascending `List ℕ` (iteration order of a
  `std::set` is ascending, and the algorithm iterates sets).
- `std::map<int, _>` is an association list strictly ascending in the key.
- `std::sort` by value is modelled by a stable insertion sort; the C++ sort
  order on equal values is unspecified, and no theorem below depends on the
  order of equal-valued entries except via the concrete inputs chosen.
- Code that can fail (the division by `M/2` in `batchPrepend`) or diverge
  (loops and recursions without a termination guarantee) is embedded with
  `Option`, `none` meaning the C++ program does not return normally.
-/

/- Core marks `Rat.add` irreducible for elaborator performance; re-marking
it semireducible lets `decide` and `rfl` evaluate the embedded code on
concrete rational inputs. The kernel itself never honoured the attribute,
so every proof below is still checked as usual. -/
set_option allowUnsafeReducibility true
attribute [local semireducible] Rat.add

namespace SSSP

/-- Extended rationals modelling C++ `double` distances, with `⊤` for `INF`. -/
abbrev Val : Type := WithTop ℚ

/-- A (vertex, distance) pair, modelling `BlockDataStructure::KeyValue`. -/
abbrev KV : Type := ℕ × Val

/-! ### Sorted-list sets and maps (std::set / std::map) -/

/-- Insert into an ascending duplicate-free list, modelling `std::set::insert`. -/
def sinsert (x : ℕ) : List ℕ → List ℕ
  | [] => [x]
  | y :: ys => if x < y then x :: y :: ys else if x = y then y :: ys else y :: sinsert x ys

/-- Insert every element of `xs` into the set `ys` (`s.insert(first, last)`). -/
def sunion (xs ys : List ℕ) : List ℕ :=
  xs.foldl (fun acc x => sinsert x acc) ys

/-- Lookup in an association list, modelling `std::map::find`. -/
def mlookup {α : Type} (k : ℕ) : List (ℕ × α) → Option α
  | [] => none
  | (k', v) :: rest => if k = k' then some v else mlookup k rest

/-- Insert-or-assign in an ascending association list (`map[k] = v`). -/
def minsert {α : Type} (k : ℕ) (v : α) : List (ℕ × α) → List (ℕ × α)
  | [] => [(k, v)]
  | (k', v') :: rest =>
    if k < k' then (k, v) :: (k', v') :: rest
    else if k = k' then (k, v) :: rest
    else (k', v') :: minsert k v rest

/-- Erase a key from an association list, modelling `std::map::erase`. -/
def merase {α : Type} (k : ℕ) : List (ℕ × α) → List (ℕ × α)
  | [] => []
  | (k', v') :: rest => if k = k' then rest else (k', v') :: merase k rest

/-! ### Stable sort by value (std::sort with `a.second < b.second`) -/

/-- Insert a pair into a list already ascending by value, before any strictly
larger value and after earlier equal values (stable). -/
def insertByVal (e : KV) : List KV → List KV
  | [] => [e]
  | x :: xs => if e.2 ≤ x.2 then e :: x :: xs else x :: insertByVal e xs

/-- Stable sort of (key, value) pairs by ascending value. -/
def sortByVal (l : List KV) : List KV := l.foldr insertByVal []

/-! ### The block data structure (`block_data_structure.hpp`)

The C++ fields `N` (capacity hint, never read) and `d1_upper_bounds`
(written on every split but never read) do not affect behaviour and are
omitted from the state. -/

/-- One block: an insertion-ordered element list plus its upper bound,
modelling `BlockDataStructure::Block` (default upper bound is `INF`). -/
structure Block where
  elements : List KV
  upper_bound : Val
deriving Repr, DecidableEq

/-- The block data structure state, modelling the mutable members of
`BlockDataStructure`. -/
structure BlockDataStructure where
  M : ℕ
  B : Val
  D0 : List Block
  D1 : List Block
  key_values : List KV
deriving Repr, DecidableEq

namespace BlockDataStructure

/-- `initialize(m, b, max_n)`: reset the structure with block size
`max(1, m)`, bound `b`, and one empty `D1` block with upper bound `b`.
(`N` is never read and is not modelled.) -/
def init (m : ℕ) (b : Val) : BlockDataStructure :=
  { M := max 1 m, B := b, D0 := [], D1 := [⟨[], b⟩], key_values := [] }

/-- `empty()`: true when every block of `D0` and `D1` holds no element. -/
def empty (s : BlockDataStructure) : Bool :=
  s.D0.all (fun b => b.elements.isEmpty) && s.D1.all (fun b => b.elements.isEmpty)

/-- `size()`: the number of keys in the key index. -/
def size (s : BlockDataStructure) : ℕ := s.key_values.length

/-- `getValue(key)`: the stored value of `key`, or `INF` when absent. -/
def getValue (s : BlockDataStructure) (key : ℕ) : Val :=
  match mlookup key s.key_values with
  | some v => v
  | none => ⊤

/-- Erase the first pair with the given key from an element list. -/
def eraseFirstKV (key : ℕ) : List KV → List KV
  | [] => []
  | e :: es => if e.1 = key then es else e :: eraseFirstKV key es

/-- Erase the first element with the given key from a block list; `none`
when no block holds the key (the C++ loop then just falls through). -/
def removeFromBlocks (key : ℕ) : List Block → Option (List Block)
  | [] => none
  | b :: bs =>
    if b.elements.any (fun e => e.1 = key) then
      some ({ b with elements := eraseFirstKV key b.elements } :: bs)
    else
      match removeFromBlocks key bs with
      | some bs' => some (b :: bs')
      | none => none

/-- `removeKey(key)`: drop the key from the index, then erase its first
occurrence, searching `D0` before `D1` and stopping at the first hit. -/
def removeKey (s : BlockDataStructure) (key : ℕ) : BlockDataStructure :=
  match mlookup key s.key_values with
  | none => s
  | some _ =>
    let kv' := merase key s.key_values
    match removeFromBlocks key s.D0 with
    | some d0' => { s with key_values := kv', D0 := d0' }
    | none =>
      match removeFromBlocks key s.D1 with
      | some d1' => { s with key_values := kv', D1 := d1' }
      | none => { s with key_values := kv' }

/-- `splitBlock`: when a block exceeds `M` elements, sort it by value and
split at the median; the lower half gets the median predecessor's value as
its upper bound, the upper half keeps the original bound. (The `getLast?`
fallback is unreachable: the split is only invoked on a block of more than
`M ≥ 1` elements, so the lower half is nonempty.) -/
def splitBlock (M : ℕ) (b : Block) : List Block :=
  if b.elements.length ≤ M then [b]
  else
    let elems := sortByVal b.elements
    let mid := elems.length / 2
    let lower := elems.take mid
    let upper := elems.drop mid
    let ub1 := match lower.getLast? with
               | some e => e.2
               | none => b.upper_bound
    [⟨lower, ub1⟩, ⟨upper, b.upper_bound⟩]

/-- `findBlockForValue` + element append + conditional split: the pair goes
into the first `D1` block whose upper bound is `≥ value`, or the last block
when none is; the receiving block is split when it overflows. (`D1` is
nonempty in every state reachable from `init`; on `[]` this is a no-op where
the C++ dereferences an invalid iterator.) -/
def insertD1 (M : ℕ) (key : ℕ) (value : Val) : List Block → List Block
  | [] => []
  | [b] => splitBlock M { b with elements := b.elements ++ [(key, value)] }
  | b :: b' :: bs =>
    if value ≤ b.upper_bound then
      splitBlock M { b with elements := b.elements ++ [(key, value)] } ++ b' :: bs
    else
      b :: insertD1 M key value (b' :: bs)

/-- The tail of `insert` after the presence check: record the key in the
index and place the pair into `D1`. -/
def insertNew (s : BlockDataStructure) (key : ℕ) (value : Val) : BlockDataStructure :=
  { s with key_values := minsert key value s.key_values,
           D1 := insertD1 s.M key value s.D1 }

/-- `insert(key, value)`: keep the stored value when it is `≤ value`;
otherwise remove the prior occurrence and insert the new pair. -/
def insert (s : BlockDataStructure) (key : ℕ) (value : Val) : BlockDataStructure :=
  match mlookup key s.key_values with
  | some v0 => if value < v0 then insertNew (removeKey s key) key value else s
  | none => insertNew s key value

/-- Cut a list into consecutive chunks of `per` elements (the last chunk may
be shorter), modelling the block-forming loop of `batchPrepend`. The clamp
`max 1 per` only matters for `per = 0`, which the caller never passes. -/
def chunkList (per : ℕ) (l : List KV) : List (List KV) :=
  match l with
  | [] => []
  | x :: xs =>
    (x :: xs).take (max 1 per) :: chunkList per ((x :: xs).drop (max 1 per))
termination_by l.length
decreasing_by
  simp only [List.length_drop, List.length_cons]
  have h1 : 1 ≤ max 1 per := le_max_left 1 per
  omega

/-- One step of the `batchPrepend` filtering loop: keep the item when its key
is absent (recording it) or strictly improves the stored value (removing the
prior occurrence first). -/
def prependFilterStep (acc : List KV × BlockDataStructure) (kv : KV) :
    List KV × BlockDataStructure :=
  let t := acc.2
  match mlookup kv.1 t.key_values with
  | none => (acc.1 ++ [kv], { t with key_values := minsert kv.1 kv.2 t.key_values })
  | some v =>
    if kv.2 < v then
      let t' := removeKey t kv.1
      (acc.1 ++ [kv], { t' with key_values := minsert kv.1 kv.2 t'.key_values })
    else acc

/-- `batchPrepend(items)`: deduplicate to the minimum value per key, keep
strict improvements over the index, sort the survivors by value, and push
them as one block (when `L ≤ M`) or `⌈L / (M/2)⌉` chunks to the front of
`D0`. When `L > M` and `M = 1` the C++ computes `(L + M/2 - 1) / (M/2)`
with `M/2 = 0` — an integer division by zero — modelled as `none`. -/
def batchPrepend (s : BlockDataStructure) (items : List KV) :
    Option BlockDataStructure :=
  if items.isEmpty then some s else
  let unique_items : List KV :=
    items.foldl (fun acc kv =>
      match mlookup kv.1 acc with
      | none => minsert kv.1 kv.2 acc
      | some v => if kv.2 < v then minsert kv.1 kv.2 acc else acc) []
  let filtered := unique_items.foldl prependFilterStep ([], s)
  let to_add := filtered.1
  let s1 := filtered.2
  if to_add.isEmpty then some s1 else
  let sorted := sortByVal to_add
  let L := sorted.length
  if L ≤ s1.M then
    let ub := match sorted.getLast? with
              | some e => e.2
              | none => (⊤ : Val)
    some { s1 with D0 := ⟨sorted, ub⟩ :: s1.D0 }
  else
    if s1.M / 2 = 0 then none
    else
      let half := s1.M / 2
      let num_blocks := (L + half - 1) / half
      let per_block := (L + num_blocks - 1) / num_blocks
      let blocks := (chunkList per_block sorted).map (fun c =>
        Block.mk c (match c.getLast? with | some e => e.2 | none => (⊤ : Val)))
      some { s1 with D0 := blocks ++ s1.D0 }

/-- The candidate-gathering loop of `pull`: concatenate whole blocks from the
front until at least `M` elements have been seen (`cnt` elements so far). -/
def collectFront (M : ℕ) (cnt : ℕ) : List Block → List KV
  | [] => []
  | b :: bs =>
    b.elements ++
      (if M ≤ cnt + b.elements.length then [] else
        collectFront M (cnt + b.elements.length) bs)

/-- Minimum stored value over a block list, folded from `acc` (models the
separator-recomputation loops of `pull`). -/
def minOverBlocks (blocks : List Block) (acc : Val) : Val :=
  blocks.foldl (fun a b => b.elements.foldl (fun a' e => min a' e.2) a) acc

/-- The tail of `pull` on the value-sorted candidate list: remove and return
the keys of the `min(M, #candidates)` smallest, and report as separator the
next candidate's value when one exists, else `B` when the structure emptied,
else the minimum remaining value (folded from `B`). -/
def pullRest (s : BlockDataStructure) (sorted : List KV) :
    (List ℕ × Val) × BlockDataStructure :=
  let toTake := min s.M sorted.length
  let result := (sorted.take toTake).map (fun e => e.1)
  let s' := (sorted.take toTake).foldl (fun t e => removeKey t e.1) s
  let sep : Val :=
    if h : toTake < sorted.length then
      (sorted.get ⟨toTake, h⟩).2
    else if empty s' then s.B
    else minOverBlocks s'.D1 (minOverBlocks s'.D0 s.B)
  ((result, sep), s')

/-- `pull()`: gather candidates from the fronts of `D0` and `D1`, sort them
by value, then extract via `pullRest`. -/
def pull (s : BlockDataStructure) : (List ℕ × Val) × BlockDataStructure :=
  let candidates := collectFront s.M 0 s.D0 ++ collectFront s.M 0 s.D1
  if candidates.isEmpty then (([], s.B), s)
  else pullRest s (sortByVal candidates)

/-- Number of stored elements across a block list. -/
def blockCount (bs : List Block) : ℕ :=
  (bs.flatMap (fun b => b.elements)).length

/-- Number of stored elements across the whole structure. -/
def totalElems (s : BlockDataStructure) : ℕ :=
  blockCount s.D0 + blockCount s.D1

end BlockDataStructure

open BlockDataStructure in
/-- Workspace with `M = 1`, `B = ⊤`, holding key 5 at value 1 (front of `D0`). -/
def pullCexA : BlockDataStructure :=
  (batchPrepend (init 1 ⊤) [(5, ((1 : ℚ) : Val))]).getD (init 1 ⊤)

open BlockDataStructure in
/-- `pullCexA` after prepending key 6 at value 5: `D0` now violates the
value-ordering the `pull` separator computation silently assumes. -/
def pullCexB : BlockDataStructure :=
  (batchPrepend pullCexA [(6, ((5 : ℚ) : Val))]).getD (init 1 ⊤)

open BlockDataStructure in
/-- `pullCexB` after inserting key 7 at value 5 into `D1`. -/
def pullCexC : BlockDataStructure :=
  insert pullCexB 7 ((5 : ℚ) : Val)

open BlockDataStructure in
/-- Workspace with `M = 2`, `B = ⊤`, holding only key 3 at value 5. -/
def wsSingle : BlockDataStructure :=
  insert (init 2 ⊤) 3 ((5 : ℚ) : Val)

/-! ### The SSSP solver (`new_sssp.hpp`)

The solver's parameters `k`, `t`, `max_level` are computed once by the
`NewSSSP` constructor from `n` with floating-point `log2`/`pow`/`floor`
(`k = max(2, ⌊(log₂n)^{1/3}⌋)`, `t = max(2, ⌊(log₂n)^{2/3}⌋)`,
`max_level = max(1, ⌈log₂n / t⌉)`, and `k = t = max_level = 1` for
`n ≤ 1`). The embedding takes them as explicit arguments `kk`, `tt`,
`maxLevel`; theorems about all solves quantify over them, and concrete
instances use the values the constructor computes for the given `n`
(for the small `n` used below these float computations are exact).

Loops and recursions of the solver that have no termination guarantee
(the base-case heap loop, the subtree-size DFS of `findPivots`, and the
`BMSSP` work loop) take an explicit fuel argument and return `none` when
it runs out; `solveF fuel g s = some r` states that the solve completes
with result `r` within `fuel` steps, and `(∀ fuel, solveF fuel g s = none)`
states that it never returns. Array reads out of range return defaults
(`⊤`, `-1`, `false`); the algorithm only indexes with vertices `< n`. -/

/-- Directed graph as adjacency lists of `(target, weight)` pairs,
modelling `SimpleGraph` of `graph_types.hpp` (finite weights). -/
structure SimpleGraph where
  n : ℕ
  adj : List (List (ℕ × ℚ))
deriving Repr, DecidableEq

/-- The mutable solver state: the shared arrays `d_hat`, `pred`,
`complete`, and the relaxation counter of `NewSSSP`. `pred` entries are
integers with `-1` as the "none" sentinel, as in the C++. -/
structure SState where
  d_hat : List Val
  pred : List ℤ
  complete : List Bool
  relaxation_count : ℕ
deriving Repr, DecidableEq

/-- Read `d_hat[v]`. -/
def dHat (σ : SState) (v : ℕ) : Val := σ.d_hat.getD v ⊤

/-- Read `pred[v]`. -/
def predOf (σ : SState) (v : ℕ) : ℤ := σ.pred.getD v (-1)

/-- Read `complete[v]`. -/
def isComplete (σ : SState) (v : ℕ) : Bool := σ.complete.getD v false

/-- Write `d_hat[v] = x`. -/
def SState.setD (σ : SState) (v : ℕ) (x : Val) : SState :=
  { σ with d_hat := σ.d_hat.set v x }

/-- Write `pred[v] = p`. -/
def SState.setPred (σ : SState) (v : ℕ) (p : ℤ) : SState :=
  { σ with pred := σ.pred.set v p }

/-- Write `complete[v] = true`. -/
def SState.setComplete (σ : SState) (v : ℕ) : SState :=
  { σ with complete := σ.complete.set v true }

/-- Increment `relaxation_count`. -/
def SState.bump (σ : SState) : SState :=
  { σ with relaxation_count := σ.relaxation_count + 1 }

/-- Out-arcs of `u` (`graph.adj[u]`). -/
def outArcs (g : SimpleGraph) (u : ℕ) : List (ℕ × ℚ) := g.adj.getD u []

/-! #### findPivots (Algorithm 1) -/

/-- The inner relaxation of a `findPivots` layer over the out-arcs of `u`:
each arc `u→v` with `d̂[u]+w ≤ d̂[v]` writes `d̂[v]` and `pred[v] = u`, and
`v` joins the new layer `Wi` when the (re-read) `d̂[u]+w` is `< B`. -/
def pivotRelaxVertex (g : SimpleGraph) (B : Val) (u : ℕ)
    (acc : List ℕ × SState) : List ℕ × SState :=
  (outArcs g u).foldl (fun acc vw =>
    let σ := acc.2.bump
    let nv := dHat σ u + (vw.2 : Val)
    if nv ≤ dHat σ vw.1 then
      let σ' := (σ.setD vw.1 nv).setPred vw.1 (u : ℤ)
      if dHat σ' u + (vw.2 : Val) < B then (sinsert vw.1 acc.1, σ')
      else (acc.1, σ')
    else (acc.1, σ)) acc

/-- The `k`-step layered relaxation of `findPivots` with the early exit
when `|W| > k·|S|`; returns `(earlyExit, W, σ)`. -/
def pivotLayers (g : SimpleGraph) (kk : ℕ) (B : Val) (S : List ℕ) :
    ℕ → List ℕ → List ℕ → SState → Bool × List ℕ × SState
  | 0, W, _, σ => (false, W, σ)
  | i+1, W, Wip, σ =>
    let r := Wip.foldl (fun acc u => pivotRelaxVertex g B u acc) ([], σ)
    let W' := sunion r.1 W
    if kk * S.length < W'.length then (true, W', r.2)
    else pivotLayers g kk B S i W' r.1 r.2

/-- Append `v` to the child list of `k` in the children map
(`children[pred[v]].push_back(v)`). -/
def mappendChild (k : ℕ) (v : ℕ) (m : List (ℕ × List ℕ)) : List (ℕ × List ℕ) :=
  match mlookup k m with
  | some l => minsert k (l ++ [v]) m
  | none => minsert k [v] m

/-- Children lists of the predecessor forest restricted to `W`, built by
scanning `v ∈ W` in ascending order (the C++ also records `parent[v]`,
which is never read). -/
def buildChildren (σ : SState) (W : List ℕ) : List (ℕ × List ℕ) :=
  W.foldl (fun ch v =>
    let p := predOf σ v
    if 0 ≤ p ∧ p.toNat ∈ W then mappendChild p.toNat v ch else ch) []

/-- Fold of the subtree-size DFS over a child list: `rec` is the DFS one
fuel level lower; children outside `W` are skipped, subtree sizes are
summed, and the `subtree_size` map is threaded. -/
def computeSizeList (rec : List (ℕ × ℕ) → ℕ → Option (ℕ × List (ℕ × ℕ)))
    (W : List ℕ) : List ℕ → List (ℕ × ℕ) → Option (ℕ × List (ℕ × ℕ))
  | [], sz => some (0, sz)
  | c :: rest, sz =>
    if c ∈ W then
      match rec sz c with
      | none => none
      | some (s, sz') =>
        match computeSizeList rec W rest sz' with
        | none => none
        | some (tl, sz'') => some (s + tl, sz'')
    else computeSizeList rec W rest sz

/-- The `computeSize` DFS of `findPivots` with explicit recursion fuel:
returns the subtree size of `v` (one plus the sizes of its children in
`W`) and the updated `subtree_size` map, or `none` when the fuel runs
out — which, for every fuel, is the case exactly when the C++ lambda
recurses forever on a cycle of predecessor links. -/
def computeSize (ch : List (ℕ × List ℕ)) (W : List ℕ) :
    ℕ → List (ℕ × ℕ) → ℕ → Option (ℕ × List (ℕ × ℕ))
  | 0, _, _ => none
  | f+1, sz, v =>
    match computeSizeList (computeSize ch W f) W ((mlookup v ch).getD []) sz with
    | none => none
    | some (total, sz') => some (1 + total, minsert v (1 + total) sz')

/-- Run `computeSize` from every root in ascending order, threading the
`subtree_size` map. -/
def computeSizeRoots (ch : List (ℕ × List ℕ)) (W : List ℕ) (fuel : ℕ) :
    List ℕ → List (ℕ × ℕ) → Option (List (ℕ × ℕ))
  | [], sz => some sz
  | r :: rs, sz =>
    match computeSize ch W fuel sz r with
    | none => none
    | some pr => computeSizeRoots ch W fuel rs pr.2

/-- `findPivots(B, S)` (Algorithm 1): `k` relaxation layers with early exit
returning `(S, W)`; otherwise build the predecessor forest on `W`, compute
subtree sizes from the roots `W ∩ S`, select as pivots the members of `S`
with subtree size `≥ k` (falling back to the first member of `S` when none
qualifies and `S` is nonempty), and mark every vertex of `W` complete. -/
def findPivots (g : SimpleGraph) (kk : ℕ) (fuel : ℕ) (B : Val) (S : List ℕ)
    (σ : SState) : Option ((List ℕ × List ℕ) × SState) :=
  match pivotLayers g kk B S kk S S σ with
  | (true, W, σ') => some ((S, W), σ')
  | (false, W, σ') =>
    let ch := buildChildren σ' W
    let roots := W.filter (fun v => decide (v ∈ S))
    match computeSizeRoots ch W fuel roots [] with
    | none => none
    | some sz =>
      let P := S.filter (fun u => decide (kk ≤ (mlookup u sz).getD 0))
      let P' := if P.isEmpty then
                  (match S with | [] => P | s0 :: _ => [s0])
                else P
      let σ'' := W.foldl (fun σ v => σ.setComplete v) σ'
      some ((P', W), σ'')

/-! #### The base case (Algorithm 2) -/

/-- Push `(d, v)` into the heap, modelled as a list sorted ascending in the
lexicographic order that `std::priority_queue` with `greater` pops. -/
def heapPush (d : Val) (v : ℕ) : List (Val × ℕ) → List (Val × ℕ)
  | [] => [(d, v)]
  | e :: es =>
    if d < e.1 ∨ (d = e.1 ∧ v ≤ e.2) then (d, v) :: e :: es
    else e :: heapPush d v es

/-- The bounded-Dijkstra loop of `baseCase`: pop while the heap is nonempty
and `|U0| < k+1`; discard stale entries; otherwise add the vertex to `U0`,
mark it complete, and relax its out-arcs (guard `d̂[u]+w ≤ d̂[v]` and
`d̂[u]+w < B`), pushing the updated `d̂[v]`. Fuel-limited: the loop does not
terminate on zero-weight cycles. (The C++ also tracks `in_heap`, which is
never read.) -/
def baseCaseLoop (g : SimpleGraph) (kk : ℕ) (B : Val) :
    ℕ → List (Val × ℕ) → List ℕ → SState → Option (List ℕ × SState)
  | 0, _, _, _ => none
  | f+1, H, U0, σ =>
    if U0.length < kk + 1 then
      match H with
      | [] => some (U0, σ)
      | (dist, u) :: H' =>
        if dHat σ u < dist then baseCaseLoop g kk B f H' U0 σ
        else
          let U0' := sinsert u U0
          let σ1 := σ.setComplete u
          let r := (outArcs g u).foldl (fun (acc : List (Val × ℕ) × SState) vw =>
            let σ := acc.2.bump
            let nv := dHat σ u + (vw.2 : Val)
            if nv ≤ dHat σ vw.1 ∧ nv < B then
              let σ' := (σ.setD vw.1 nv).setPred vw.1 (u : ℤ)
              (heapPush (dHat σ' vw.1) vw.1 acc.1, σ')
            else (acc.1, σ)) (H', σ1)
          baseCaseLoop g kk B f r.1 U0' r.2
    else some (U0, σ)

/-- `baseCase(B, S)` (Algorithm 2): for empty `S` return `(B, ∅)` at once;
otherwise run the bounded Dijkstra from the first element of `S`, then
return `(B, U0)` when `|U0| ≤ k`, else `(max d̂ over U0, {v ∈ U0 : d̂[v] <
max})` (the C++ folds the maximum starting from `0`). -/
def baseCase (g : SimpleGraph) (kk : ℕ) (fuel : ℕ) (B : Val) (S : List ℕ)
    (σ : SState) : Option ((Val × List ℕ) × SState) :=
  match S with
  | [] => some ((B, []), σ)
  | x :: _ =>
    match baseCaseLoop g kk B fuel [(dHat σ x, x)] [x] σ with
    | none => none
    | some (U0, σ') =>
      if U0.length ≤ kk then some ((B, U0), σ')
      else
        let maxd := U0.foldl (fun m v => max m (dHat σ' v)) 0
        some ((maxd, U0.filter (fun v => decide (dHat σ' v < maxd))), σ')

/-! #### BMSSP (Algorithm 3) -/

/-- The edge-relaxation step of the BMSSP work loop for the arc `u→vw.1`:
on `d̂[u]+w ≤ d̂[v]` write `d̂[v]` and `pred[v] = u`, then re-read the value
and either re-insert into `D` (value in `[Bᵢ, B)`) or collect into the
batch `K` (value in `[B'ᵢ, Bᵢ)`). -/
def bmsspRelaxEdge (Bpi Bi B : Val) (u : ℕ) (vw : ℕ × ℚ)
    (acc : BlockDataStructure × List KV × SState) :
    BlockDataStructure × List KV × SState :=
  let σ := acc.2.2.bump
  let nv := dHat σ u + (vw.2 : Val)
  if nv ≤ dHat σ vw.1 then
    let σ' := (σ.setD vw.1 nv).setPred vw.1 (u : ℤ)
    let nv' := dHat σ' u + (vw.2 : Val)
    if Bi ≤ nv' ∧ nv' < B then (acc.1.insert vw.1 nv', acc.2.1, σ')
    else if Bpi ≤ nv' ∧ nv' < Bi then (acc.1, acc.2.1 ++ [(vw.1, nv')], σ')
    else (acc.1, acc.2.1, σ')
  else (acc.1, acc.2.1, σ)

/-- The BMSSP work loop (fuel-limited): while `|U| < sizeLimit` and `D` is
nonempty, pull `(Sᵢ, Bᵢ)`, call `recurse` (the `BMSSP` of the level below),
merge `Uᵢ`, relax the out-arcs of `Uᵢ`, collect the batch `K` (also
re-adding the members of `Sᵢ` with `d̂` in `[B'ᵢ, Bᵢ)`), and `batchPrepend`
it (whose division by zero propagates as `none`). -/
def bmsspLoop (g : SimpleGraph)
    (recurse : Val → List ℕ → SState → Option ((Val × List ℕ) × SState))
    (B : Val) (sizeLimit : ℕ) :
    ℕ → List ℕ → Val → BlockDataStructure → SState →
      Option (List ℕ × Val × SState)
  | 0, _, _, _, _ => none
  | f+1, U, Bpi, D, σ =>
    if U.length < sizeLimit ∧ D.empty = false then
      let pr := D.pull
      let Si := pr.1.1.foldl (fun s x => sinsert x s) []
      let Bi := pr.1.2
      if Si.isEmpty then some (U, Bpi, σ)
      else
        match recurse Bi Si σ with
        | none => none
        | some ((Bpi', Ui), σ1) =>
          let U' := sunion Ui U
          let step := Ui.foldl (fun acc u =>
              (outArcs g u).foldl (fun acc vw => bmsspRelaxEdge Bpi' Bi B u vw acc) acc)
            (pr.2, ([] : List KV), σ1)
          let σ2 := step.2.2
          let K := Si.foldl (fun K x =>
              if Bpi' ≤ dHat σ2 x ∧ dHat σ2 x < Bi then K ++ [(x, dHat σ2 x)] else K)
            step.2.1
          match step.1.batchPrepend K with
          | none => none
          | some D' => bmsspLoop g recurse B sizeLimit f U' Bpi' D' σ2
    else some (U, Bpi, σ)

/-- `BMSSP(level, B, S)` (Algorithm 3): level 0 delegates to the base case;
at `level+1` run `findPivots`, return `(B, W)` when no pivot, otherwise
create the workspace `D` with `M = clamp(2^{level·t}, 1, n)`, insert the
pivots below `B`, seed `B'₀` from the complete pivots (default: first
pivot), and run the work loop with capacity `clamp(k·2^{(level+1)·t}, 1,
n)`; finally return `B' = min(B'ᵢ, B)` and `U` augmented with the members
of `W` below `B'`. -/
def BMSSP (g : SimpleGraph) (kk tt : ℕ) (gfuel : ℕ) :
    ℕ → Val → List ℕ → SState → Option ((Val × List ℕ) × SState)
  | 0, B, S, σ => baseCase g kk gfuel B S σ
  | level'+1, B, S, σ =>
    match findPivots g kk gfuel B S σ with
    | none => none
    | some ((P, W), σ1) =>
      if P.isEmpty then some ((B, W), σ1)
      else
        let M := max 1 (min (2 ^ (level' * tt)) g.n)
        let D0 := P.foldl (fun D x =>
            if dHat σ1 x < B then D.insert x (dHat σ1 x) else D)
          (BlockDataStructure.init M B)
        let Bp0 := P.foldl (fun b x =>
            if isComplete σ1 x then min b (dHat σ1 x) else b) (⊤ : Val)
        let Bp0' := if Bp0 = ⊤ ∧ ¬ P.isEmpty then
                      (match P with | [] => Bp0 | p0 :: _ => dHat σ1 p0)
                    else Bp0
        let sizeLimit := max 1 (min (kk * 2 ^ ((level' + 1) * tt)) g.n)
        match bmsspLoop g (BMSSP g kk tt gfuel level') B sizeLimit gfuel
            [] Bp0' D0 σ1 with
        | none => none
        | some (U, Bpi, σ2) =>
          let Bp := min Bpi B
          let U' := W.foldl (fun U x => if dHat σ2 x < Bp then sinsert x U else U) U
          some ((Bp, U'), σ2)

/-- The result of a solve (`NewSSSP::Result`). -/
structure Result where
  distances : List Val
  predecessors : List ℤ
  source : ℕ
deriving Repr, DecidableEq

/-- The seed relaxation of `solve`: relax the source's out-arcs once,
with a strict-improvement guard. -/
def seedRelax (g : SimpleGraph) (source : ℕ) (σ : SState) : SState :=
  (outArcs g source).foldl (fun σ vw =>
    let nv := dHat σ source + (vw.2 : Val)
    if nv < dHat σ vw.1 then (σ.setD vw.1 nv).setPred vw.1 (source : ℤ) else σ) σ

/-- The initial state of `solve`: `d̂ = ∞` except `d̂[source] = 0`, `pred =
-1` everywhere, `complete = false` except the source. -/
def initState (g : SimpleGraph) (source : ℕ) : SState :=
  { d_hat := (List.replicate g.n (⊤ : Val)).set source 0,
    pred := List.replicate g.n (-1),
    complete := (List.replicate g.n false).set source true,
    relaxation_count := 0 }

/-- `solve(source)`: initialize the state, relax the source's out-arcs
once, call `BMSSP(max_level, INF, {source})`, and return the distance and
predecessor arrays. -/
def solveF (g : SimpleGraph) (kk tt maxLevel : ℕ) (fuel : ℕ) (source : ℕ) :
    Option Result :=
  match BMSSP g kk tt fuel maxLevel ⊤ [source] (seedRelax g source (initState g source)) with
  | none => none
  | some (_, σ2) =>
    some { distances := σ2.d_hat, predecessors := σ2.pred, source := source }

/-- The 4-vertex star `0→1` (1), `0→2` (2), `0→3` (3): the concrete graph
on which `solve(·, 0)` never returns. For `n = 4` the constructor computes
`log₂4 = 2` exactly, so `k = max(2, ⌊2^{1/3}⌋) = 2`, `t = max(2,
⌊2^{2/3}⌋) = 2`, `max_level = max(1, ⌈2/2⌉) = 1`. -/
def gStar4 : SimpleGraph :=
  ⟨4, [[(1, 1), (2, 2), (3, 3)], [], [], []]⟩

/-- `baseCaseSpec`: the §4.D return policy stated from the spec's words on
top of the shared bounded-Dijkstra loop — `(B, U)` when `|U| ≤ k`, else
`(M, {v ∈ U : d̂[v] < M})` with `M = max{d̂[v] : v ∈ U}`, the maximum over
the nonempty completed set (the code instead folds the maximum starting
from `0`). -/
def baseCaseSpec (g : SimpleGraph) (kk : ℕ) (fuel : ℕ) (B : Val) (x : ℕ)
    (σ : SState) : Option ((Val × List ℕ) × SState) :=
  match baseCaseLoop g kk B fuel [(dHat σ x, x)] [x] σ with
  | none => none
  | some (U, σ') =>
    if U.length ≤ kk then some ((B, U), σ')
    else
      let maxd := ((U.map (dHat σ')).max?).getD ⊤
      some ((maxd, U.filter (fun v => decide (dHat σ' v < maxd))), σ')

/-- The one-vertex graph with no arcs (trivial parameters `k = t = L = 1`). -/
def oneVertexGraph : SimpleGraph := ⟨1, [[]]⟩

/-! ## Lemmas about the block workspace -/

namespace BlockDataStructure

theorem length_insertByVal (e : KV) (l : List KV) :
    (insertByVal e l).length = l.length + 1 := by
  induction l with
  | nil => rfl
  | cons x xs ih =>
    rw [insertByVal]
    split
    · simp
    · simp [ih]

theorem length_sortByVal (l : List KV) : (sortByVal l).length = l.length := by
  induction l with
  | nil => rfl
  | cons x xs ih => simp [sortByVal, List.foldr] at ih ⊢; rw [length_insertByVal, ih]

theorem length_le_eraseFirstKV (k : ℕ) (l : List KV) :
    l.length ≤ (eraseFirstKV k l).length + 1 := by
  induction l with
  | nil => simp
  | cons e es ih =>
    rw [eraseFirstKV]
    split
    · simp
    · simpa using Nat.succ_le_succ ih

theorem blockCount_removeFromBlocks (k : ℕ) (bs bs' : List Block)
    (h : removeFromBlocks k bs = some bs') :
    blockCount bs ≤ blockCount bs' + 1 := by
  induction bs generalizing bs' with
  | nil => simp [removeFromBlocks] at h
  | cons b rest ih =>
    rw [removeFromBlocks] at h
    split at h
    · cases h
      simp only [blockCount, List.flatMap_cons, List.length_append]
      have := length_le_eraseFirstKV k b.elements
      omega
    · revert h
      cases hrec : removeFromBlocks k rest with
      | none => intro h; cases h
      | some r' =>
        intro h
        cases h
        have := ih r' hrec
        simp only [blockCount, List.flatMap_cons, List.length_append] at *
        omega

theorem totalElems_removeKey (s : BlockDataStructure) (k : ℕ) :
    totalElems s ≤ totalElems (removeKey s k) + 1 := by
  rw [removeKey]
  split
  · omega
  · rename_i v _
    cases h0 : removeFromBlocks k s.D0 with
    | some d0' =>
      have := blockCount_removeFromBlocks k s.D0 d0' h0
      simp only [totalElems]
      omega
    | none =>
      cases h1 : removeFromBlocks k s.D1 with
      | some d1' =>
        have := blockCount_removeFromBlocks k s.D1 d1' h1
        simp only [totalElems]
        omega
      | none => simp only [totalElems]; omega

theorem totalElems_foldl_removeKey (l : List KV) (s : BlockDataStructure) :
    totalElems s ≤ totalElems (l.foldl (fun t e => removeKey t e.1) s) + l.length := by
  induction l generalizing s with
  | nil => simp
  | cons e es ih =>
    have h1 := totalElems_removeKey s e.1
    have h2 := ih (removeKey s e.1)
    simp only [List.foldl_cons, List.length_cons]
    omega

theorem blockCount_eq_zero_of_all_isEmpty (bs : List Block)
    (h : bs.all (fun b => b.elements.isEmpty) = true) : blockCount bs = 0 := by
  induction bs with
  | nil => rfl
  | cons b rest ih =>
    simp only [List.all_cons, Bool.and_eq_true, List.isEmpty_iff] at h
    simp only [blockCount, List.flatMap_cons, List.length_append, h.1]
    simpa [blockCount] using ih (by simpa using h.2)

theorem totalElems_eq_zero_of_empty (s : BlockDataStructure)
    (h : empty s = true) : totalElems s = 0 := by
  rw [empty, Bool.and_eq_true] at h
  rw [totalElems, blockCount_eq_zero_of_all_isEmpty s.D0 h.1,
    blockCount_eq_zero_of_all_isEmpty s.D1 h.2]

theorem collectFront_sublist (M : ℕ) (cnt : ℕ) (bs : List Block) :
    List.Sublist (collectFront M cnt bs) (bs.flatMap (fun b => b.elements)) := by
  induction bs generalizing cnt with
  | nil => simp [collectFront]
  | cons b rest ih =>
    rw [collectFront, List.flatMap_cons]
    split
    · exact (List.nil_sublist _).append_left b.elements
    · exact (ih _).append_left b.elements

theorem mlookup_minsert_self {α : Type} (k : ℕ) (v : α) (l : List (ℕ × α)) :
    mlookup k (minsert k v l) = some v := by
  induction l with
  | nil => simp [minsert, mlookup]
  | cons e es ih =>
    rw [minsert]
    split
    · simp [mlookup]
    · split
      · simp [mlookup]
      · rename_i h1 h2
        rw [mlookup, if_neg, ih]
        intro hk
        exact h2 hk

end BlockDataStructure

/-! ## Claims about the block workspace -/

open BlockDataStructure

/-- C2: the claim states that every block-workspace operation is total for
every block capacity `M ≥ 1`. It is not: with `M = 1`, a `batch_prepend`
whose surviving batch has more than `M` items computes the chunk count as
`(L + M/2 - 1) / (M/2)` with `M/2 = 0`, an integer division by zero
(undefined behaviour; a crash on mainstream targets). The embedding returns
`none` exactly on that division; this theorem evaluates the failing call. -/
theorem C2_batchPrepend_division_by_zero :
    batchPrepend (init 1 ⊤) [(0, ((0 : ℚ) : Val)), (1, ((1 : ℚ) : Val))] = none := by
  decide

/-- C3 counterexample: after `batch_prepend {(5,1)}`, `batch_prepend {(6,5)}`,
`insert (7,5)` on a workspace with `M = 1`, `B = ⊤`, the next `pull` returns
key 6 (stored value 5) with separator 5 — not strictly below the separator —
while keys 5 and 7 remain with values 1 and 5, and value 1 is below the
separator; the workspace is not empty and the separator differs from `B`.
Both ordering guarantees of the claim fail on this reachable state. -/
theorem C3_pull_separator_counterexample :
    batchPrepend (init 1 ⊤) [(5, ((1 : ℚ) : Val))] = some pullCexA ∧
    batchPrepend pullCexA [(6, ((5 : ℚ) : Val))] = some pullCexB ∧
    insert pullCexB 7 ((5 : ℚ) : Val) = pullCexC ∧
    (pull pullCexC).1.1 = [6] ∧
    getValue pullCexC 6 = ((5 : ℚ) : Val) ∧
    (pull pullCexC).1.2 = ((5 : ℚ) : Val) ∧
    ¬ getValue pullCexC 6 < (pull pullCexC).1.2 ∧
    mlookup 5 (pull pullCexC).2.key_values = some ((1 : ℚ) : Val) ∧
    getValue (pull pullCexC).2 5 < (pull pullCexC).1.2 ∧
    (pull pullCexC).2.empty = false ∧
    (pull pullCexC).1.2 ≠ pullCexC.B := by
  decide

/-- C3 (amended): `pull` returns at most `M` keys, and when the workspace is
left empty by the pull the separator equals the configured bound `B`. (The
original claim's two value-ordering guarantees fail, see the counterexample;
this retains the remaining guarantees, for every workspace state.) -/
theorem pullRest_bounds (s : BlockDataStructure) (sorted : List KV)
    (hlen : sorted.length ≤ totalElems s) :
    (pullRest s sorted).1.1.length ≤ s.M ∧
    ((pullRest s sorted).2.empty = true → (pullRest s sorted).1.2 = s.B) := by
  constructor
  · simp only [pullRest, List.length_map, List.length_take]
    omega
  · intro hemp
    simp only [pullRest] at hemp ⊢
    split
    · exfalso
      have hfold := totalElems_foldl_removeKey (sorted.take (min s.M sorted.length)) s
      have hzero := totalElems_eq_zero_of_empty _ hemp
      rw [hzero] at hfold
      simp only [List.length_take] at hfold
      omega
    · rfl

theorem C3_pull_amended (s : BlockDataStructure) :
    (pull s).1.1.length ≤ s.M ∧
    ((pull s).2.empty = true → (pull s).1.2 = s.B) := by
  simp only [pull]
  split
  · exact ⟨by simp, fun _ => rfl⟩
  · apply pullRest_bounds
    rw [length_sortByVal]
    have h0 := (collectFront_sublist s.M 0 s.D0).length_le
    have h1 := (collectFront_sublist s.M 0 s.D1).length_le
    simp only [List.length_append, totalElems, blockCount]
    omega

/-- Witness for the amended C3 at the concrete workspace `wsSingle`: the one
stored key is pulled, the workspace is left empty, and the separator is its
configured bound `⊤`. -/
theorem C3_pull_amended_witness :
    (pull wsSingle).1.1.length ≤ wsSingle.M ∧ (pull wsSingle).1.2 = wsSingle.B :=
  ⟨(C3_pull_amended wsSingle).1, (C3_pull_amended wsSingle).2 (by decide)⟩

/-- C8: re-inserting a present key with a value `≥` the stored one leaves the
whole workspace state unchanged; re-inserting with a smaller value removes
the prior occurrence first and then stores the key at the new value (the
not-present insertion path applied to `removeKey`), after which the index
maps the key to the new value. -/
theorem C8_insert_reinsertion (s : BlockDataStructure) (k : ℕ) (v v' : Val)
    (h : mlookup k s.key_values = some v) :
    (v ≤ v' → insert s k v' = s) ∧
    (v' < v → insert s k v' = insertNew (removeKey s k) k v' ∧
      getValue (insert s k v') k = v') := by
  constructor
  · intro hle
    have hn : ¬ v' < v := not_lt.mpr hle
    simp [BlockDataStructure.insert, h, hn]
  · intro hlt
    constructor
    · simp [BlockDataStructure.insert, h, hlt]
    · simp [BlockDataStructure.insert, h, hlt, getValue, insertNew, mlookup_minsert_self]

/-- Witness for C8 at the concrete workspace `wsSingle` (key 3 stored at
value 5): inserting at 7 is a no-op and inserting at 2 stores value 2. -/
theorem C8_insert_reinsertion_witness :
    insert wsSingle 3 ((7 : ℚ) : Val) = wsSingle ∧
    getValue (insert wsSingle 3 ((2 : ℚ) : Val)) 3 = ((2 : ℚ) : Val) :=
  ⟨(C8_insert_reinsertion wsSingle 3 ((5 : ℚ) : Val) ((7 : ℚ) : Val)
      (by decide)).1 (by decide),
   ((C8_insert_reinsertion wsSingle 3 ((5 : ℚ) : Val) ((2 : ℚ) : Val)
      (by decide)).2 (by decide)).2⟩

/-- C9: `getValue` (the spec's `value_of`) returns `+∞` for a key absent from
the key-to-value index and exactly the stored value for a present key. -/
theorem C9_getValue_spec (s : BlockDataStructure) (k : ℕ) :
    (mlookup k s.key_values = none → getValue s k = ⊤) ∧
    (∀ v : Val, mlookup k s.key_values = some v → getValue s k = v) := by
  constructor
  · intro h; rw [getValue, h]
  · intro v h; rw [getValue, h]

/-- Witness for C9 at `wsSingle`: key 3 is present with value 5, key 4 is
absent and reads as `⊤`. -/
theorem C9_getValue_spec_witness :
    getValue wsSingle 3 = ((5 : ℚ) : Val) ∧ getValue wsSingle 4 = ⊤ :=
  ⟨(C9_getValue_spec wsSingle 3).2 ((5 : ℚ) : Val) (by decide),
   (C9_getValue_spec wsSingle 4).1 (by decide)⟩

/-! ## Claims about the solver -/

/-- C1: the claim states that `solve(G, s)` returns the true shortest-path
distances for every directed graph with finite non-negative weights. It
does not: on the 4-vertex star `0→1` (1), `0→2` (2), `0→3` (3) with source
0 (constructor parameters `k = 2`, `t = 2`, `max_level = 1`), the first
level-1 work-loop iteration collects the batch `K = {(2,2), (3,3)}` and
calls `batchPrepend` on a workspace with `M = 1`, which divides by
`M/2 = 0` — solve crashes instead of returning `[0, 1, 2, 3]`. In the
embedding the solve returns `none` for every fuel: exhaustion below fuel
9, the division by zero from fuel 9 on. -/
theorem C1_solve_crashes_on_star : ∀ fuel : ℕ, solveF gStar4 2 2 1 fuel 0 = none
  | 0 => by decide
  | 1 => by decide
  | 2 => by decide
  | 3 => by decide
  | 4 => by decide
  | 5 => by decide
  | 6 => by decide
  | 7 => by decide
  | 8 => by decide
  | fuel + 9 => rfl

/-- C10: `baseCase(B, S)` with an empty frontier returns `(B, ∅)` and
leaves the state — the arrays `d̂`, `pred`, `complete` and the relaxation
counter — entirely unchanged. -/
theorem C10_baseCase_empty_frontier (g : SimpleGraph) (kk fuel : ℕ)
    (B : Val) (σ : SState) :
    baseCase g kk fuel B [] σ = some ((B, []), σ) := rfl

/-! ## Monotonicity of the distance array (C4) -/

theorem dHat_bump (σ : SState) (v : ℕ) : dHat σ.bump v = dHat σ v := rfl

theorem dHat_setPred (σ : SState) (u : ℕ) (p : ℤ) (v : ℕ) :
    dHat (σ.setPred u p) v = dHat σ v := rfl

theorem dHat_setComplete (σ : SState) (u : ℕ) (v : ℕ) :
    dHat (σ.setComplete u) v = dHat σ v := rfl

theorem dHat_setD_eq_or (σ : SState) (u : ℕ) (x : Val) (v : ℕ) :
    (dHat (σ.setD u x) v = x ∧ v = u) ∨ dHat (σ.setD u x) v = dHat σ v := by
  by_cases hv : v = u
  · subst hv
    by_cases hlen : v < σ.d_hat.length
    · exact Or.inl ⟨by
        simp [dHat, SState.setD, List.getD_eq_getElem?_getD, List.getElem?_set, hlen], rfl⟩
    · exact Or.inr (by
        simp [dHat, SState.setD, List.set_eq_of_length_le (le_of_not_lt hlen)])
  · exact Or.inr (by
      simp [dHat, SState.setD, List.getD_eq_getElem?_getD, List.getElem?_set, Ne.symm hv])

theorem dHat_setD_le (σ : SState) (u : ℕ) (x : Val) (h : x ≤ dHat σ u) (v : ℕ) :
    dHat (σ.setD u x) v ≤ dHat σ v := by
  rcases dHat_setD_eq_or σ u x v with ⟨hx, rfl⟩ | hkeep
  · rw [hx]; exact h
  · rw [hkeep]

theorem foldl_dHat_le {α β : Type} (proj : β → SState) (f : β → α → β)
    (hf : ∀ acc a v, dHat (proj (f acc a)) v ≤ dHat (proj acc) v) :
    ∀ (l : List α) (acc : β) (v : ℕ),
      dHat (proj (l.foldl f acc)) v ≤ dHat (proj acc) v
  | [], _, _ => le_refl _
  | a :: as, acc, v =>
    le_trans (foldl_dHat_le proj f hf as (f acc a) v) (hf acc a v)

theorem pivotRelaxVertex_dHat_le (g : SimpleGraph) (B : Val) (u : ℕ)
    (acc : List ℕ × SState) (v : ℕ) :
    dHat (pivotRelaxVertex g B u acc).2 v ≤ dHat acc.2 v := by
  unfold pivotRelaxVertex
  refine foldl_dHat_le (fun a => a.2) _ ?_ (outArcs g u) acc v
  intro acc vw w
  dsimp only
  split
  · rename_i hguard
    split <;>
      exact le_trans (le_of_eq (dHat_setPred _ _ _ w)) (dHat_setD_le _ _ _ hguard w)
  · exact le_refl _

theorem pivotLayers_dHat_le (g : SimpleGraph) (kk : ℕ) (B : Val) (S : List ℕ) :
    ∀ (i : ℕ) (W Wip : List ℕ) (σ : SState) (v : ℕ),
      dHat (pivotLayers g kk B S i W Wip σ).2.2 v ≤ dHat σ v
  | 0, _, _, _, _ => le_refl _
  | i+1, W, Wip, σ, v => by
    unfold pivotLayers
    dsimp only
    split
    · exact foldl_dHat_le (fun a => a.2) _
        (fun acc u w => pivotRelaxVertex_dHat_le g B u acc w) Wip ([], σ) v
    · exact le_trans (pivotLayers_dHat_le g kk B S i _ _ _ v)
        (foldl_dHat_le (fun a => a.2) _
          (fun acc u w => pivotRelaxVertex_dHat_le g B u acc w) Wip ([], σ) v)

theorem dHat_foldl_setComplete :
    ∀ (l : List ℕ) (σ : SState) (v : ℕ),
      dHat (l.foldl (fun σ x => σ.setComplete x) σ) v = dHat σ v
  | [], _, _ => rfl
  | x :: xs, σ, v => dHat_foldl_setComplete xs (σ.setComplete x) v

theorem findPivots_dHat_le (g : SimpleGraph) (kk fuel : ℕ) (B : Val)
    (S : List ℕ) (σ : SState) (r : (List ℕ × List ℕ) × SState)
    (h : findPivots g kk fuel B S σ = some r) (v : ℕ) :
    dHat r.2 v ≤ dHat σ v := by
  have hpl := pivotLayers_dHat_le g kk B S kk S S σ v
  unfold findPivots at h
  split at h
  · rename_i W σ' heq
    cases h
    rw [heq] at hpl
    exact hpl
  · rename_i W σ' heq
    rw [heq] at hpl
    dsimp only at h
    split at h
    · cases h
    · rename_i sz hcs
      cases h
      dsimp only
      rw [dHat_foldl_setComplete]
      exact hpl

theorem baseCaseLoop_dHat_le (g : SimpleGraph) (kk : ℕ) (B : Val) :
    ∀ (f : ℕ) (H : List (Val × ℕ)) (U0 : List ℕ) (σ : SState)
      (r : List ℕ × SState),
      baseCaseLoop g kk B f H U0 σ = some r → ∀ v, dHat r.2 v ≤ dHat σ v
  | 0, _, _, _, _, h => by cases h
  | f+1, H, U0, σ, r, h => by
    intro v
    simp only [baseCaseLoop] at h
    split at h
    · match H, h with
      | [], h => cases h; exact le_refl _
      | (dist, u) :: H', h => ?_
      dsimp only at h
      split at h
      · exact baseCaseLoop_dHat_le g kk B f H' U0 σ r h v
      · refine le_trans (le_trans
          (baseCaseLoop_dHat_le g kk B f _ _ _ r h v) ?_)
          (le_of_eq (dHat_setComplete σ u v))
        refine foldl_dHat_le (fun a => a.2) _ ?_ (outArcs g u) (H', σ.setComplete u) v
        intro acc vw w
        dsimp only
        split
        · rename_i hguard
          exact le_trans (le_of_eq (dHat_setPred _ _ _ w))
            (dHat_setD_le _ _ _ hguard.1 w)
        · exact le_refl _
    · cases h; exact le_refl _

theorem baseCase_dHat_le (g : SimpleGraph) (kk fuel : ℕ) (B : Val)
    (S : List ℕ) (σ : SState) (r : (Val × List ℕ) × SState)
    (h : baseCase g kk fuel B S σ = some r) (v : ℕ) :
    dHat r.2 v ≤ dHat σ v := by
  unfold baseCase at h
  match S, h with
  | [], h => cases h; exact le_refl _
  | x :: rest, h => ?_
  dsimp only at h
  split at h
  · cases h
  · rename_i U0 σ' hl
    have := baseCaseLoop_dHat_le g kk B fuel _ _ _ _ hl v
    split at h <;> (cases h; exact this)

theorem bmsspRelaxEdge_dHat_le (Bpi Bi B : Val) (u : ℕ) (vw : ℕ × ℚ)
    (acc : BlockDataStructure × List KV × SState) (v : ℕ) :
    dHat (bmsspRelaxEdge Bpi Bi B u vw acc).2.2 v ≤ dHat acc.2.2 v := by
  unfold bmsspRelaxEdge
  dsimp only
  split
  · rename_i hguard
    split
    · exact le_trans (le_of_eq (dHat_setPred _ _ _ v)) (dHat_setD_le _ _ _ hguard v)
    · split <;>
        exact le_trans (le_of_eq (dHat_setPred _ _ _ v)) (dHat_setD_le _ _ _ hguard v)
  · exact le_refl _

theorem bmsspLoop_dHat_le (g : SimpleGraph)
    (recurse : Val → List ℕ → SState → Option ((Val × List ℕ) × SState))
    (B : Val) (sizeLimit : ℕ)
    (hrec : ∀ Bi Si σ r, recurse Bi Si σ = some r → ∀ v, dHat r.2 v ≤ dHat σ v) :
    ∀ (f : ℕ) (U : List ℕ) (Bpi : Val) (D : BlockDataStructure) (σ : SState)
      (r : List ℕ × Val × SState),
      bmsspLoop g recurse B sizeLimit f U Bpi D σ = some r →
      ∀ v, dHat r.2.2 v ≤ dHat σ v
  | 0, _, _, _, _, _, h => by cases h
  | f+1, U, Bpi, D, σ, r, h => by
    intro v
    simp only [bmsspLoop] at h
    split at h
    · split at h
      · cases h; exact le_refl _
      · split at h
        · cases h
        · rename_i Bpi' Ui σ1 hR
          split at h
          · cases h
          · rename_i D' hbp
            have hσ1 := hrec _ _ _ _ hR
            refine le_trans
              (bmsspLoop_dHat_le g recurse B sizeLimit hrec f _ _ _ _ r h v)
              (le_trans ?_ (hσ1 v))
            exact foldl_dHat_le (fun a => a.2.2) _
              (fun acc u w' =>
                foldl_dHat_le (fun a => a.2.2) _
                  (fun acc' vw w'' => bmsspRelaxEdge_dHat_le _ _ _ _ _ acc' w'')
                  (outArcs g u) acc w')
              _ _ v
    · cases h; exact le_refl _

theorem BMSSP_dHat_le (g : SimpleGraph) (kk tt gfuel : ℕ) :
    ∀ (level : ℕ) (B : Val) (S : List ℕ) (σ : SState)
      (r : (Val × List ℕ) × SState),
      BMSSP g kk tt gfuel level B S σ = some r → ∀ v, dHat r.2 v ≤ dHat σ v
  | 0, B, S, σ, r, h => baseCase_dHat_le g kk gfuel B S σ r h
  | level'+1, B, S, σ, r, h => by
    intro v
    simp only [BMSSP] at h
    split at h
    · cases h
    · rename_i P W σ1 hfp
      have h1 := findPivots_dHat_le g kk gfuel B S σ _ hfp v
      split at h
      · cases h; exact h1
      · split at h
        · cases h
        · rename_i U Bpi σ2 hloop
          cases h
          dsimp only
          refine le_trans ?_ h1
          exact bmsspLoop_dHat_le g (BMSSP g kk tt gfuel level') B _
            (fun Bi Si σ' r' hr' => BMSSP_dHat_le g kk tt gfuel level' Bi Si σ' r' hr')
            gfuel _ _ _ _ _ hloop v

theorem seedRelax_dHat_le (g : SimpleGraph) (source : ℕ) (σ : SState) (v : ℕ) :
    dHat (seedRelax g source σ) v ≤ dHat σ v := by
  unfold seedRelax
  apply foldl_dHat_le (fun a => a) _ ?_ (outArcs g source) σ v
  intro acc vw w
  dsimp only
  split
  · rename_i hguard
    exact le_trans (le_of_eq (dHat_setPred _ _ _ w)) (dHat_setD_le _ _ _ (le_of_lt hguard) w)
  · exact le_refl _

/-- C4: the distance array is monotone non-increasing under every component
of a solve — the entry point's seed relaxation, the pivot finder, the base
case, and `BMSSP` at every level (which covers its own edge relaxation and
all nested calls): whenever a component call completes, every entry of `d̂`
in the resulting state is `≤` its value in the entering state. Every
individual write is guarded by `new ≤ old` (strict `<` in the seed), which
is what drives each step of the induction. -/
theorem C4_dhat_monotone :
    (∀ (g : SimpleGraph) (source : ℕ) (σ : SState) (v : ℕ),
      dHat (seedRelax g source σ) v ≤ dHat σ v) ∧
    (∀ (g : SimpleGraph) (kk fuel : ℕ) (B : Val) (S : List ℕ) (σ : SState) r,
      findPivots g kk fuel B S σ = some r → ∀ v, dHat r.2 v ≤ dHat σ v) ∧
    (∀ (g : SimpleGraph) (kk fuel : ℕ) (B : Val) (S : List ℕ) (σ : SState) r,
      baseCase g kk fuel B S σ = some r → ∀ v, dHat r.2 v ≤ dHat σ v) ∧
    (∀ (g : SimpleGraph) (kk tt gfuel level : ℕ) (B : Val) (S : List ℕ)
      (σ : SState) r,
      BMSSP g kk tt gfuel level B S σ = some r → ∀ v, dHat r.2 v ≤ dHat σ v) :=
  ⟨seedRelax_dHat_le,
   findPivots_dHat_le,
   baseCase_dHat_le,
   fun g kk tt gfuel level B S σ r h =>
     BMSSP_dHat_le g kk tt gfuel level B S σ r h⟩

/-- Witness for C4 on the one-vertex graph: `BMSSP` at level 1 completes
and the distance of vertex 0 did not increase. -/
theorem C4_dhat_monotone_witness :
    dHat ((((⊤ : Val), [0]), initState oneVertexGraph 0) : (Val × List ℕ) × SState).2 0 ≤
      dHat (initState oneVertexGraph 0) 0 :=
  C4_dhat_monotone.2.2.2 oneVertexGraph 1 1 5 1 ⊤ [0] (initState oneVertexGraph 0)
    (((⊤ : Val), [0]), initState oneVertexGraph 0) (by decide) 0

/-! ## The base case against its specification (C5) -/

theorem outArcs_nonneg (g : SimpleGraph)
    (hw : ∀ row ∈ g.adj, ∀ vw ∈ row, (0:ℚ) ≤ vw.2) :
    ∀ u, ∀ vw ∈ outArcs g u, (0:ℚ) ≤ vw.2 := by
  intro u vw hvw
  unfold outArcs at hvw
  rw [List.getD_eq_getElem?_getD] at hvw
  cases hrow : g.adj[u]? with
  | none => rw [hrow] at hvw; cases hvw
  | some row =>
    rw [hrow] at hvw
    exact hw row (List.getElem?_mem hrow) vw hvw

theorem dHat_nonneg_of_entries (σ : SState)
    (hd : ∀ y ∈ σ.d_hat, (0:Val) ≤ y) : ∀ v, (0:Val) ≤ dHat σ v := by
  intro v
  unfold dHat
  rw [List.getD_eq_getElem?_getD]
  cases hy : σ.d_hat[v]? with
  | none => exact le_top
  | some y => exact hd y (List.getElem?_mem hy)

theorem dHat_setD_nonneg (σ : SState) (u : ℕ) (x : Val) (hx : 0 ≤ x)
    (hσ : ∀ v, (0:Val) ≤ dHat σ v) (v : ℕ) : 0 ≤ dHat (σ.setD u x) v := by
  rcases dHat_setD_eq_or σ u x v with ⟨h1, _⟩ | h2
  · rw [h1]; exact hx
  · rw [h2]; exact hσ v

theorem foldl_preserve {α β : Type} (P : β → Prop) (f : β → α → β) :
    ∀ (l : List α), (∀ acc a, a ∈ l → P acc → P (f acc a)) →
      ∀ acc, P acc → P (l.foldl f acc)
  | [], _, _, h => h
  | a :: as, hf, acc, h =>
    foldl_preserve P f as (fun acc' a' ha' => hf acc' a' (List.mem_cons_of_mem a ha'))
      (f acc a) (hf acc a (List.mem_cons_self a as) h)

theorem baseCaseLoop_nonneg (g : SimpleGraph) (kk : ℕ) (B : Val)
    (hw : ∀ u, ∀ vw ∈ outArcs g u, (0:ℚ) ≤ vw.2) :
    ∀ (f : ℕ) (H : List (Val × ℕ)) (U0 : List ℕ) (σ : SState)
      (r : List ℕ × SState),
      baseCaseLoop g kk B f H U0 σ = some r →
      (∀ v, (0:Val) ≤ dHat σ v) → ∀ v, (0:Val) ≤ dHat r.2 v
  | 0, _, _, _, _, h => by cases h
  | f+1, H, U0, σ, r, h => by
    intro hσ v
    simp only [baseCaseLoop] at h
    split at h
    · match H, h with
      | [], h => cases h; exact hσ v
      | (dist, u) :: H', h => ?_
      dsimp only at h
      split at h
      · exact baseCaseLoop_nonneg g kk B hw f H' U0 σ r h hσ v
      · refine baseCaseLoop_nonneg g kk B hw f _ _ _ r h ?_ v
        refine foldl_preserve (fun acc => ∀ w, (0:Val) ≤ dHat acc.2 w) _
          (outArcs g u) ?_ (H', σ.setComplete u) (fun w => hσ w)
        intro acc vw hmem hacc w
        dsimp only
        split
        · rename_i hguard
          rw [dHat_setPred]
          refine dHat_setD_nonneg _ _ _ ?_ (fun w' => hacc w') w
          refine add_nonneg (hacc u) ?_
          exact_mod_cast hw u vw hmem
        · exact hacc w
    · cases h; exact hσ v

theorem foldl_max_eq_maxQ (σ : SState) (l : List ℕ) (hne : l ≠ [])
    (h0 : ∀ v, (0:Val) ≤ dHat σ v) :
    l.foldl (fun m v => max m (dHat σ v)) 0 = ((l.map (dHat σ)).max?).getD ⊤ := by
  match l, hne with
  | a :: as, _ =>
    have h1 : (a :: as).map (dHat σ) = dHat σ a :: as.map (dHat σ) := rfl
    have h2 : (dHat σ a :: as.map (dHat σ)).max? =
        some ((as.map (dHat σ)).foldl max (dHat σ a)) := rfl
    rw [h1, h2]
    have h3 : (as.map (dHat σ)).foldl max (dHat σ a) =
        as.foldl (fun m v => max m (dHat σ v)) (dHat σ a) := by
      rw [List.foldl_map]
    rw [Option.getD_some, h3, List.foldl_cons, max_comm, max_eq_left (h0 a)]

/-- C5: for a singleton frontier `S = {x}` and non-negative weights and
distance entries, the base case equals its §4.D specification: the shared
bounded Dijkstra (relaxing only under `d̂[u]+c ≤ d̂[w]` and `d̂[u]+c < B`,
stopping when the heap empties or `|U| = k+1`) followed by the return
policy `(B, U)` when `|U| ≤ k`, else `(M, {v ∈ U : d̂[v] < M})` with `M`
the maximum of `d̂` over `U` (the code's fold of the maximum from `0`
coincides with the true maximum since distances are non-negative). -/
theorem C5_baseCase_refines_spec (g : SimpleGraph) (kk fuel : ℕ) (B : Val)
    (x : ℕ) (σ : SState)
    (hw : ∀ row ∈ g.adj, ∀ vw ∈ row, (0:ℚ) ≤ vw.2)
    (hd : ∀ y ∈ σ.d_hat, (0:Val) ≤ y) :
    baseCase g kk fuel B [x] σ = baseCaseSpec g kk fuel B x σ := by
  unfold baseCase baseCaseSpec
  dsimp only
  cases hl : baseCaseLoop g kk B fuel [(dHat σ x, x)] [x] σ with
  | none => rfl
  | some pr =>
    obtain ⟨U0, σ'⟩ := pr
    dsimp only
    split
    · rfl
    · rename_i hlen
      have hnn := baseCaseLoop_nonneg g kk B (outArcs_nonneg g hw) fuel _ _ _ _ hl
        (dHat_nonneg_of_entries σ hd)
      have hne : U0 ≠ [] := by
        intro hU
        rw [hU] at hlen
        exact hlen (by simp)
      rw [foldl_max_eq_maxQ σ' U0 hne hnn]

/-- Witness for C5 at the concrete 4-vertex star with the seeded state:
the base case and its specification agree. -/
theorem C5_baseCase_refines_spec_witness :
    baseCase gStar4 2 9 ⊤ [0] (seedRelax gStar4 0 (initState gStar4 0)) =
      baseCaseSpec gStar4 2 9 ⊤ 0 (seedRelax gStar4 0 (initState gStar4 0)) :=
  C5_baseCase_refines_spec gStar4 2 9 ⊤ 0 (seedRelax gStar4 0 (initState gStar4 0))
    (by decide) (by decide)

end SSSP
